import Mathlib

/-!
Shallow embedding of `src/data_structures/avl_tree.rs` (an AVL tree storing
unique, totally ordered values) together with a verification of its
specification: balance, order, height-cache and count invariants,
insert/remove/contains/iterator contracts, and the reachability of the
internal `unwrap` calls.

`Tree α` models `Option<Box<AVLNode<T>>>`: `nil` is `None`, and
`node value height left right` carries the same fields as `AVLNode`.
Machine `usize` heights are modelled as `Nat`; the `i8` cast inside
`balance_factor` is modelled exactly (two's-complement truncation of the
low byte) by `i8cast`.
-/

namespace AvlSpec

/-- The `Side` enum of the source: selects the left or right subtree. -/
inductive Side where
  | left
  | right
deriving DecidableEq

/-- The `Not` implementation for `Side`. -/
def Side.flip : Side → Side
  | .left => .right
  | .right => .left

/-- `Tree α` is `Option<Box<AVLNode<α>>>`: `nil` for `None`, `node` for a
boxed `AVLNode` with the same field order (`value`, `height`, `left`,
`right`). -/
inductive Tree (α : Type) where
  | nil
  | node (value : α) (height : Nat) (left right : Tree α)
deriving DecidableEq

variable {α : Type}

/-- `self.height(side)`: the cached height of an optional subtree, `0` when
absent (`map_or(0, |n| n.height)`). -/
def hgt : Tree α → Nat
  | .nil => 0
  | .node _ h _ _ => h

/-- Two's-complement `as i8` cast of a nonnegative machine integer. -/
def i8cast (n : Nat) : Int :=
  if n % 256 < 128 then (n % 256 : Int) else (n % 256 : Int) - 256

/-- `AVLNode::balance_factor`: `height(right) - height(left)` computed by
unsigned subtraction followed by an `i8` cast, exactly as in the source
(`0` on the never-used `nil` case). -/
def bfac : Tree α → Int
  | .nil => 0
  | .node _ _ l r =>
    if hgt l < hgt r then i8cast (hgt r - hgt l) else -(i8cast (hgt l - hgt r))

/-- `AVLNode::rotate(side)`: detaches the child opposite `side`
(`unwrap`-ing it), relocates its inner subtree, recomputes the old root's
height, swaps root and child, reattaches and recomputes the new root's
height.  A missing required child (`unwrap` panic) is modelled as the
identity; `rotateP` below records the panic instead. -/
def rotate (t : Tree α) (s : Side) : Tree α :=
  match s, t with
  | _, .nil => .nil
  | .left, .node v h l r =>
    match r with
    | .nil => .node v h l r
    | .node rv _ rl rr =>
      let d := Tree.node v (1 + max (hgt l) (hgt rl)) l rl
      .node rv (1 + max (hgt d) (hgt rr)) d rr
  | .right, .node v h l r =>
    match l with
    | .nil => .node v h l r
    | .node lv _ ll lr =>
      let d := Tree.node v (1 + max (hgt lr) (hgt r)) lr r
      .node lv (1 + max (hgt ll) (hgt d)) ll d

/-- `AVLNode::rebalance`: recompute the height, read the balance factor,
and on `-2`/`+2` rotate (with the extra child rotation in the zig-zag
cases).  The `unwrap` of the heavy child is modelled as "no rotation" when
the child is absent; `rebalanceP` below records the panic instead. -/
def rebalance (t : Tree α) : Tree α :=
  match t with
  | .nil => .nil
  | .node v _ l r =>
    let h := 1 + max (hgt l) (hgt r)
    let bf := bfac (Tree.node v h l r)
    if bf = -2 then
      match l with
      | .nil => .node v h l r
      | .node _ _ _ _ =>
        let l' := if bfac l = 1 then rotate l .left else l
        rotate (.node v h l' r) .right
    else if bf = 2 then
      match r with
      | .nil => .node v h l r
      | .node _ _ _ _ =>
        let r' := if bfac r = -1 then rotate r .right else r
        rotate (.node v h l r') .left
    else .node v h l r

/-- The free function `insert`: recursive insertion returning the new
subtree together with the `inserted` flag; rebalances on the way up only
when an insertion happened below. -/
def insertAux [LinearOrder α] (t : Tree α) (x : α) : Tree α × Bool :=
  match t with
  | .nil => (.node x 1 .nil .nil, true)
  | .node v h l r =>
    if x < v then
      let p := insertAux l x
      (if p.2 then rebalance (.node v h p.1 r) else .node v h p.1 r, p.2)
    else if v < x then
      let p := insertAux r x
      (if p.2 then rebalance (.node v h l p.1) else .node v h l p.1, p.2)
    else (.node v h l r, false)

/-- The free function `take_min`: removes the smallest node, returning it
(children cleared, `height` field left stale, exactly as in the source)
together with the remaining subtree, rebalancing the path back up. -/
def takeMin (t : Tree α) : Option (Tree α) × Tree α :=
  match t with
  | .nil => (none, .nil)
  | .node v h l r =>
    match takeMin l with
    | (some m, l') => (some m, rebalance (.node v h l' r))
    | (none, _) => (some (.node v h .nil .nil), r)

/-- The free function `merge`: takes the minimum of `r` (the `unwrap` is
modelled as returning `nil` when it would panic; `mergeP` records the
panic), makes it the root over `l` and the remainder of `r`, and
rebalances once. -/
def merge (l r : Tree α) : Tree α :=
  match takeMin r with
  | (some (.node v h _ _), r') => rebalance (.node v h l r')
  | _ => .nil

/-- The free function `remove`: recursive removal returning the new
subtree together with the `removed` flag.  At the matching node the slot
becomes empty, the single child, or the `merge` of both children; the
matching node itself is not rebalanced (`return true`). -/
def removeAux [LinearOrder α] (t : Tree α) (x : α) : Tree α × Bool :=
  match t with
  | .nil => (.nil, false)
  | .node v h l r =>
    if x < v then
      let p := removeAux l x
      (if p.2 then rebalance (.node v h p.1 r) else .node v h p.1 r, p.2)
    else if v < x then
      let p := removeAux r x
      (if p.2 then rebalance (.node v h l p.1) else .node v h l p.1, p.2)
    else
      match l, r with
      | .nil, .nil => (.nil, true)
      | .nil, .node bv bh bl br => (.node bv bh bl br, true)
      | .node bv bh bl br, .nil => (.node bv bh bl br, true)
      | .node lv lh ll lr, .node rv rh rl rr =>
        (merge (.node lv lh ll lr) (.node rv rh rl rr), true)

/-- `AVLTree::contains`: iterative binary search from the root. -/
def containsAux [LinearOrder α] (t : Tree α) (x : α) : Bool :=
  match t with
  | .nil => false
  | .node v _ l r =>
    if x < v then containsAux l x else if v < x then containsAux r x else true

/-- The `AVLTree` handle: root plus cached element count. -/
structure AVLTree (α : Type) where
  root : Tree α
  length : Nat

/-- `AVLTree::new`. -/
def AVLTree.new : AVLTree α := ⟨.nil, 0⟩

/-- `AVLTree::insert`: delegates to the free `insert` and bumps the count
iff an insertion happened. -/
def AVLTree.insert [LinearOrder α] (t : AVLTree α) (x : α) : AVLTree α × Bool :=
  let p := insertAux t.root x
  (⟨p.1, if p.2 then t.length + 1 else t.length⟩, p.2)

/-- `AVLTree::remove`: delegates to the free `remove` and decrements the
count iff a removal happened. -/
def AVLTree.remove [LinearOrder α] (t : AVLTree α) (x : α) : AVLTree α × Bool :=
  let p := removeAux t.root x
  (⟨p.1, if p.2 then t.length - 1 else t.length⟩, p.2)

/-- `AVLTree::contains`. -/
def AVLTree.contains [LinearOrder α] (t : AVLTree α) (x : α) : Bool := containsAux t.root x

/-- `AVLTree::len`. -/
def AVLTree.len (t : AVLTree α) : Nat := t.length

/-- `AVLTree::is_empty`. -/
def AVLTree.isEmpty (t : AVLTree α) : Bool := t.length == 0

/-- `FromIterator for AVLTree`: starts empty and inserts each element. -/
def AVLTree.fromList [LinearOrder α] (xs : List α) : AVLTree α :=
  xs.foldl (fun t x => (t.insert x).1) AVLTree.new

/-- The `while let` loop shared by `node_iter` and `NodeIter::next`:
pushes every node on the leftmost-child chain of `t`.  A stack entry keeps
the fields `next` reads from a pushed node: its value and right subtree.
The head of the list is the top of the stack. -/
def pushLeftChain (t : Tree α) (s : List (α × Tree α)) : List (α × Tree α) :=
  match t with
  | .nil => s
  | .node v _ l r => pushLeftChain l ((v, r) :: s)

/-- `AVLTree::node_iter`: the initial stack holds the path from the root
down the leftmost-child chain. -/
def nodeIterStack (t : AVLTree α) : List (α × Tree α) :=
  pushLeftChain t.root []

/-- `NodeIter::next` (and `Iter::next`, which projects the value): pops
the top of the stack, pushes the leftmost-child chain of its right
subtree, and yields the popped value. -/
def iterNext (s : List (α × Tree α)) : Option (α × List (α × Tree α)) :=
  match s with
  | [] => none
  | (v, r) :: rest => some (v, pushLeftChain r rest)

/-- Number of nodes reachable from (and including) `t`. -/
def size : Tree α → Nat
  | .nil => 0
  | .node _ _ l r => size l + size r + 1

/-- Termination measure for draining an iterator stack. -/
def stackMeasure (s : List (α × Tree α)) : Nat :=
  (s.map (fun p => 1 + size p.2)).sum

theorem stackMeasure_pushLeftChain (t : Tree α) (s : List (α × Tree α)) :
    stackMeasure (pushLeftChain t s) = size t + stackMeasure s := by
  induction t generalizing s with
  | nil => simp [pushLeftChain, size]
  | node v h l r ihl ihr =>
    simp only [pushLeftChain, size]
    rw [ihl]
    simp [stackMeasure]
    omega

/-- Runs `Iter::next` to exhaustion, collecting every yielded value. -/
def drain (s : List (α × Tree α)) : List α :=
  match s with
  | [] => []
  | (v, r) :: rest => v :: drain (pushLeftChain r rest)
termination_by stackMeasure s
decreasing_by
  rw [stackMeasure_pushLeftChain]
  simp [stackMeasure]

/-- The full sequence of values yielded by `AVLTree::iter`. -/
def AVLTree.iterList (t : AVLTree α) : List α :=
  drain (nodeIterStack t)

/-- In-order list of the values stored in a subtree. -/
def inorder : Tree α → List α
  | .nil => []
  | .node v _ l r => inorder l ++ v :: inorder r

/-- Actual height of a subtree, ignoring the cached `height` fields. -/
def realHeight : Tree α → Nat
  | .nil => 0
  | .node _ _ l r => 1 + max (realHeight l) (realHeight r)

/-- Height-cache invariant: every `height` field equals
`1 + max(height(left), height(right))`. -/
def HOk : Tree α → Prop
  | .nil => True
  | .node _ h l r => HOk l ∧ HOk r ∧ h = 1 + max (hgt l) (hgt r)

/-- AVL balance invariant on the cached heights. -/
def Bal : Tree α → Prop
  | .nil => True
  | .node _ _ l r => Bal l ∧ Bal r ∧ hgt l ≤ hgt r + 1 ∧ hgt r ≤ hgt l + 1

/-- Binary-search-tree order invariant. -/
def BST [LinearOrder α] : Tree α → Prop
  | .nil => True
  | .node v _ l r =>
    BST l ∧ BST r ∧ (∀ y ∈ inorder l, y < v) ∧ (∀ y ∈ inorder r, v < y)

/-- A structurally valid AVL subtree. -/
def Avl [LinearOrder α] (t : Tree α) : Prop := HOk t ∧ Bal t ∧ BST t

/-- The data-model invariant of an `AVLTree` handle. -/
def Inv [LinearOrder α] (t : AVLTree α) : Prop := Avl t.root ∧ t.length = size t.root

/-- Subtrees reachable from a root by following child links. -/
inductive Reach : Tree α → Tree α → Prop
  | refl (t : Tree α) : Reach t t
  | left {v h l r u} : Reach l u → Reach (Tree.node v h l r) u
  | right {v h l r u} : Reach r u → Reach (Tree.node v h l r) u

/-- A public mutating operation on the tree. -/
inductive Op (α : Type) where
  | ins (x : α)
  | del (x : α)

/-- Applies one public operation. -/
def applyOp [LinearOrder α] (t : AVLTree α) : Op α → AVLTree α
  | .ins x => (t.insert x).1
  | .del x => (t.remove x).1

/-- Applies a finite sequence of public operations in order. -/
def applyOps [LinearOrder α] (t : AVLTree α) (ops : List (Op α)) : AVLTree α :=
  ops.foldl applyOp t

/-- Panic-aware `rotate`: `none` exactly when the source `unwrap` (of the
child opposite the rotation direction) would panic. -/
def rotateP (t : Tree α) (s : Side) : Option (Tree α) :=
  match s, t with
  | _, .nil => none
  | .left, .node v _ l r =>
    match r with
    | .nil => none
    | .node rv _ rl rr =>
      let d := Tree.node v (1 + max (hgt l) (hgt rl)) l rl
      some (.node rv (1 + max (hgt d) (hgt rr)) d rr)
  | .right, .node v _ l r =>
    match l with
    | .nil => none
    | .node lv _ ll lr =>
      let d := Tree.node v (1 + max (hgt lr) (hgt r)) lr r
      some (.node lv (1 + max (hgt ll) (hgt d)) ll d)

/-- Panic-aware `rebalance`: `none` exactly when one of the source
`unwrap` calls (heavy child in `rebalance`, or a child inside `rotate`)
would panic. -/
def rebalanceP (t : Tree α) : Option (Tree α) :=
  match t with
  | .nil => some .nil
  | .node v _ l r =>
    let h := 1 + max (hgt l) (hgt r)
    let bf := bfac (Tree.node v h l r)
    if bf = -2 then
      match l with
      | .nil => none
      | .node _ _ _ _ =>
        match (if bfac l = 1 then rotateP l .left else some l) with
        | none => none
        | some l' => rotateP (.node v h l' r) .right
    else if bf = 2 then
      match r with
      | .nil => none
      | .node _ _ _ _ =>
        match (if bfac r = -1 then rotateP r .right else some r) with
        | none => none
        | some r' => rotateP (.node v h l r') .left
    else some (.node v h l r)

/-- Panic-aware `merge`: `none` exactly when the `take_min(...).unwrap()`
in the source would panic, or a rebalancing `unwrap` would. -/
def mergeP (l r : Tree α) : Option (Tree α) :=
  match takeMin r with
  | (some (.node v h _ _), r') => rebalanceP (.node v h l r')
  | _ => none


/-! ### Basic structural lemmas -/

@[simp] theorem hgt_nil : hgt (.nil : Tree α) = 0 := rfl

@[simp] theorem hgt_node (v : α) (h : Nat) (l r : Tree α) :
    hgt (.node v h l r) = h := rfl

@[simp] theorem HOk_nil : HOk (.nil : Tree α) := trivial

theorem HOk_node {v : α} {h : Nat} {l r : Tree α} :
    HOk (.node v h l r) ↔ HOk l ∧ HOk r ∧ h = 1 + max (hgt l) (hgt r) :=
  Iff.rfl

@[simp] theorem Bal_nil : Bal (.nil : Tree α) := trivial

theorem Bal_node {v : α} {h : Nat} {l r : Tree α} :
    Bal (.node v h l r) ↔
      Bal l ∧ Bal r ∧ hgt l ≤ hgt r + 1 ∧ hgt r ≤ hgt l + 1 :=
  Iff.rfl

@[simp] theorem BST_nil [LinearOrder α] : BST (.nil : Tree α) := trivial

theorem BST_node [LinearOrder α] {v : α} {h : Nat} {l r : Tree α} :
    BST (.node v h l r) ↔
      BST l ∧ BST r ∧ (∀ y ∈ inorder l, y < v) ∧ (∀ y ∈ inorder r, v < y) :=
  Iff.rfl

@[simp] theorem inorder_nil : inorder (.nil : Tree α) = [] := rfl

@[simp] theorem inorder_node (v : α) (h : Nat) (l r : Tree α) :
    inorder (.node v h l r) = inorder l ++ v :: inorder r := rfl

@[simp] theorem size_nil : size (.nil : Tree α) = 0 := rfl

@[simp] theorem size_node (v : α) (h : Nat) (l r : Tree α) :
    size (.node v h l r) = size l + size r + 1 := rfl

theorem size_eq_length_inorder (t : Tree α) : size t = (inorder t).length := by
  induction t with
  | nil => rfl
  | node v h l r ihl ihr => simp [ihl, ihr]; omega

theorem ne_nil_of_hgt_pos {t : Tree α} (h : 0 < hgt t) : t ≠ .nil := by
  cases t with
  | nil => simp at h
  | node => simp

/-- Exact value of the source balance factor when the height difference is
below the `i8` truncation threshold. -/
theorem bfac_node_eq {v : α} {h : Nat} {l r : Tree α}
    (d1 : hgt l ≤ hgt r + 127) (d2 : hgt r ≤ hgt l + 127) :
    bfac (.node v h l r) = (hgt r : Int) - (hgt l : Int) := by
  simp only [bfac, i8cast]
  split_ifs <;> omega

/-! ### `rotate` and `rebalance` preserve the in-order list -/

theorem rotate_inorder (t : Tree α) (s : Side) :
    inorder (rotate t s) = inorder t := by
  cases s with
  | left =>
    cases t with
    | nil => rfl
    | node v h l r =>
      cases r with
      | nil => rfl
      | node rv rh rl rr => simp [rotate]
  | right =>
    cases t with
    | nil => rfl
    | node v h l r =>
      cases l with
      | nil => rfl
      | node lv lh ll lr => simp [rotate]

theorem rebalance_inorder (t : Tree α) : inorder (rebalance t) = inorder t := by
  cases t with
  | nil => rfl
  | node v h l r =>
    simp only [rebalance]
    split_ifs with h2 h2' <;>
      cases l <;> cases r <;>
        simp_all [rotate_inorder]

theorem rotate_size (t : Tree α) (s : Side) : size (rotate t s) = size t := by
  rw [size_eq_length_inorder, size_eq_length_inorder, rotate_inorder]

theorem rebalance_size (t : Tree α) : size (rebalance t) = size t := by
  rw [size_eq_length_inorder, size_eq_length_inorder, rebalance_inorder]

/-! ### BST is equivalent to a strictly sorted in-order list -/

theorem bst_iff_sorted [LinearOrder α] (t : Tree α) :
    BST t ↔ (inorder t).Sorted (· < ·) := by
  induction t with
  | nil => simp
  | node v h l r ihl ihr =>
    rw [BST_node, inorder_node, List.Sorted, List.pairwise_append,
      List.pairwise_cons, ihl, ihr]
    constructor
    · rintro ⟨sl, sr, bl, br⟩
      refine ⟨sl, ⟨br, sr⟩, ?_⟩
      intro a ha b hb
      rcases List.mem_cons.mp hb with rfl | hb
      · exact bl a ha
      · exact lt_trans (bl a ha) (br b hb)
    · rintro ⟨sl, ⟨br, sr⟩, cross⟩
      exact ⟨sl, sr, fun y hy => cross y hy v (List.mem_cons_self v _), br⟩

theorem rebalance_BST [LinearOrder α] {t : Tree α} (h : BST t) :
    BST (rebalance t) := by
  rw [bst_iff_sorted, rebalance_inorder]
  exact (bst_iff_sorted t).mp h


/-! ### The `rebalance` contract

Under the precondition actually established at every call site — both
children carry correct cached heights, are balanced, and their heights
differ by at most two — `rebalance` restores the balance invariant, keeps
the cached heights correct, yields a subtree of height `1 + max` or one
less (the latter only when the height difference was exactly two), and
none of its internal `unwrap` calls can panic (`rebalanceP` succeeds). -/

theorem rebalance_eq_bal {v : α} {h : Nat} {l r : Tree α}
    (d1 : hgt l ≤ hgt r + 1) (d2 : hgt r ≤ hgt l + 1) :
    rebalance (.node v h l r) = .node v (1 + max (hgt l) (hgt r)) l r ∧
    rebalanceP (.node v h l r) = some (.node v (1 + max (hgt l) (hgt r)) l r) := by
  have hb : bfac (Tree.node v (1 + max (hgt l) (hgt r)) l r) = (hgt r : Int) - hgt l :=
    bfac_node_eq (by omega) (by omega)
  constructor
  · simp only [rebalance]
    rw [if_neg (by rw [hb]; omega), if_neg (by rw [hb]; omega)]
  · simp only [rebalanceP]
    rw [if_neg (by rw [hb]; omega), if_neg (by rw [hb]; omega)]

theorem rebalance_main {v : α} {h : Nat} {l r : Tree α}
    (hokl : HOk l) (hokr : HOk r) (ball : Bal l) (balr : Bal r)
    (d1 : hgt l ≤ hgt r + 2) (d2 : hgt r ≤ hgt l + 2) :
    HOk (rebalance (.node v h l r)) ∧ Bal (rebalance (.node v h l r)) ∧
    max (hgt l) (hgt r) ≤ hgt (rebalance (.node v h l r)) ∧
    hgt (rebalance (.node v h l r)) ≤ 1 + max (hgt l) (hgt r) ∧
    (hgt (rebalance (.node v h l r)) = 1 + max (hgt l) (hgt r) ∨
      hgt l = hgt r + 2 ∨ hgt r = hgt l + 2) ∧
    rebalanceP (.node v h l r) = some (rebalance (.node v h l r)) := by
  by_cases h2l : hgt l = hgt r + 2
  · -- left-heavy by two: the left child must be a node
    rcases l with _ | ⟨lv, lh, ll, lr⟩
    · simp only [hgt_nil] at h2l; omega
    simp only [hgt_node] at h2l
    rcases hokl with ⟨hokll, hoklr, hlh⟩
    rcases ball with ⟨balll, ballr, dll, dlr⟩
    have hb : bfac (Tree.node v (1 + max (hgt (Tree.node lv lh ll lr)) (hgt r))
        (Tree.node lv lh ll lr) r) = (hgt r : Int) - lh :=
      bfac_node_eq
        (by first | omega | (simp only [hgt_node, hgt_nil]; omega))
        (by first | omega | (simp only [hgt_node, hgt_nil]; omega))
    have hc2 : bfac (Tree.node v (1 + max (hgt (Tree.node lv lh ll lr)) (hgt r))
        (Tree.node lv lh ll lr) r) = -2 := by rw [hb]; omega
    have hbl : bfac (Tree.node lv lh ll lr) = (hgt lr : Int) - hgt ll :=
      bfac_node_eq
        (by first | omega | (simp only [hgt_node, hgt_nil]; omega))
        (by first | omega | (simp only [hgt_node, hgt_nil]; omega))
    by_cases hzz : bfac (Tree.node lv lh ll lr) = 1
    · -- zig-zag: double rotation; the inner child must be a node
      have hwl : hgt lr = hgt ll + 1 := by rw [hbl] at hzz; omega
      rcases lr with _ | ⟨w, wh, wl, wr⟩
      · simp only [hgt_nil] at hwl; omega
      rcases hoklr with ⟨hokwl, hokwr, hwh⟩
      rcases ballr with ⟨balwl, balwr, dwl, dwr⟩
      simp only [hgt_node] at hwl hlh
      simp only [rebalance, rebalanceP]
      rw [if_pos hc2, if_pos hc2, if_pos hzz, if_pos hzz]
      simp only [rotate, rotateP, hgt_node]
      refine ⟨⟨⟨hokll, hokwl, rfl⟩, ⟨hokwr, hokr, rfl⟩, rfl⟩,
        ⟨⟨balll, balwl, ?_, ?_⟩, ⟨balwr, balr, ?_, ?_⟩, ?_, ?_⟩,
        ?_, ?_, ?_, trivial⟩ <;>
        first | omega | (simp only [hgt_node, hgt_nil]; omega)
    · -- zig-zig or even: single right rotation
      have hll : (hgt ll : Int) ≥ hgt lr := by rw [hbl] at hzz; omega
      simp only [rebalance, rebalanceP]
      rw [if_pos hc2, if_pos hc2, if_neg hzz, if_neg hzz]
      simp only [rotate, rotateP, hgt_node]
      refine ⟨⟨hokll, ⟨hoklr, hokr, rfl⟩, rfl⟩,
        ⟨balll, ⟨ballr, balr, ?_, ?_⟩, ?_, ?_⟩, ?_, ?_, ?_, trivial⟩ <;>
        first | omega | (simp only [hgt_node, hgt_nil]; omega)
  · by_cases h2r : hgt r = hgt l + 2
    · -- right-heavy by two: the right child must be a node
      rcases r with _ | ⟨rv, rh, rl, rr⟩
      · simp only [hgt_nil] at h2r; omega
      simp only [hgt_node] at h2r
      rcases hokr with ⟨hokrl, hokrr, hrh⟩
      rcases balr with ⟨balrl, balrr, drl, drr⟩
      have hb : bfac (Tree.node v (1 + max (hgt l) (hgt (Tree.node rv rh rl rr)))
          l (Tree.node rv rh rl rr)) = (rh : Int) - hgt l :=
        bfac_node_eq
          (by first | omega | (simp only [hgt_node, hgt_nil]; omega))
          (by first | omega | (simp only [hgt_node, hgt_nil]; omega))
      have hcn2 : ¬(bfac (Tree.node v (1 + max (hgt l) (hgt (Tree.node rv rh rl rr)))
          l (Tree.node rv rh rl rr)) = -2) := by rw [hb]; omega
      have hc2 : bfac (Tree.node v (1 + max (hgt l) (hgt (Tree.node rv rh rl rr)))
          l (Tree.node rv rh rl rr)) = 2 := by rw [hb]; omega
      have hbr : bfac (Tree.node rv rh rl rr) = (hgt rr : Int) - hgt rl :=
        bfac_node_eq
          (by first | omega | (simp only [hgt_node, hgt_nil]; omega))
          (by first | omega | (simp only [hgt_node, hgt_nil]; omega))
      by_cases hzz : bfac (Tree.node rv rh rl rr) = -1
      · -- zig-zag: double rotation; the inner child must be a node
        have hwl : hgt rl = hgt rr + 1 := by rw [hbr] at hzz; omega
        rcases rl with _ | ⟨w, wh, wl, wr⟩
        · simp only [hgt_nil] at hwl; omega
        rcases hokrl with ⟨hokwl, hokwr, hwh⟩
        rcases balrl with ⟨balwl, balwr, dwl, dwr⟩
        simp only [hgt_node] at hwl hrh
        simp only [rebalance, rebalanceP]
        rw [if_neg hcn2, if_neg hcn2, if_pos hc2, if_pos hc2, if_pos hzz, if_pos hzz]
        simp only [rotate, rotateP, hgt_node]
        refine ⟨⟨⟨hokl, hokwl, rfl⟩, ⟨hokwr, hokrr, rfl⟩, rfl⟩,
          ⟨⟨ball, balwl, ?_, ?_⟩, ⟨balwr, balrr, ?_, ?_⟩, ?_, ?_⟩,
          ?_, ?_, ?_, trivial⟩ <;>
          first | omega | (simp only [hgt_node, hgt_nil]; omega)
      · -- zig-zig or even: single left rotation
        have hll : (hgt rr : Int) ≥ hgt rl := by rw [hbr] at hzz; omega
        simp only [rebalance, rebalanceP]
        rw [if_neg hcn2, if_neg hcn2, if_pos hc2, if_pos hc2, if_neg hzz, if_neg hzz]
        simp only [rotate, rotateP, hgt_node]
        refine ⟨⟨⟨hokl, hokrl, rfl⟩, hokrr, rfl⟩,
          ⟨⟨ball, balrl, ?_, ?_⟩, balrr, ?_, ?_⟩, ?_, ?_, ?_, trivial⟩ <;>
          first | omega | (simp only [hgt_node, hgt_nil]; omega)
    · -- height difference at most one: no rotation
      have e := rebalance_eq_bal (v := v) (h := h) (l := l) (r := r)
        (by omega) (by omega)
      rw [e.1, e.2]
      exact ⟨⟨hokl, hokr, rfl⟩, ⟨ball, balr, by omega, by omega⟩,
        by simp only [hgt_node]; omega, by simp only [hgt_node]; omega,
        Or.inl (by simp only [hgt_node]), rfl⟩


/-! ### Membership helpers -/

@[simp] theorem mem_inorder_node {y v : α} {h : Nat} {l r : Tree α} :
    y ∈ inorder (.node v h l r) ↔ y ∈ inorder l ∨ y = v ∨ y ∈ inorder r := by
  simp [inorder]

/-! ### The `insert` contract -/

set_option maxHeartbeats 1000000 in
theorem insertAux_spec [LinearOrder α] (x : α) {t : Tree α}
    (hok : HOk t) (bal : Bal t) (bst : BST t) :
    HOk (insertAux t x).1 ∧ Bal (insertAux t x).1 ∧ BST (insertAux t x).1 ∧
    ((insertAux t x).2 = true ↔ ¬ x ∈ inorder t) ∧
    (∀ y, y ∈ inorder (insertAux t x).1 ↔ (y ∈ inorder t ∨ y = x)) ∧
    hgt t ≤ hgt (insertAux t x).1 ∧ hgt (insertAux t x).1 ≤ hgt t + 1 ∧
    ((insertAux t x).2 = false → (insertAux t x).1 = t) ∧
    size (insertAux t x).1 = size t + (if (insertAux t x).2 = true then 1 else 0) := by
  induction t with
  | nil =>
    refine ⟨⟨trivial, trivial, rfl⟩, ⟨trivial, trivial, by simp, by simp⟩,
      ⟨trivial, trivial, by simp, by simp⟩, by simp [insertAux],
      by simp [insertAux], by simp [insertAux, hgt], by simp [insertAux, hgt],
      by simp [insertAux], by simp [insertAux]⟩
  | node v h l r ihl ihr =>
    obtain ⟨hokl, hokr, hh⟩ := hok
    obtain ⟨ball, balr, dl, dr⟩ := bal
    obtain ⟨bstl, bstr, bl, br⟩ := bst
    rcases lt_trichotomy x v with hxv | hxv | hxv
    · -- x < v: recurse into the left child
      obtain ⟨ihok, ihbal, ihbst, ihflag, ihmem, ihh1, ihh2, ihsame, ihsize⟩ :=
        ihl hokl ball bstl
      have hnr : ¬ x ∈ inorder r := fun hx => lt_asymm hxv (br x hx)
      rcases hp : insertAux l x with ⟨l', ins⟩
      simp only [hp] at ihok ihbal ihbst ihflag ihmem ihh1 ihh2 ihsame ihsize
      cases ins with
      | true =>
        have e1 : insertAux (Tree.node v h l r) x =
            (rebalance (.node v h l' r), true) := by
          simp only [insertAux]
          rw [if_pos hxv, hp]
          rfl
        obtain ⟨mok, mbal, mh1, mh2, mh3, _⟩ :=
          rebalance_main (v := v) (h := h) (l := l') (r := r)
            ihok hokr ihbal balr (by omega) (by omega)
        have hbl' : ∀ y ∈ inorder l', y < v := by
          intro y hy
          rcases (ihmem y).mp hy with hyl | rfl
          · exact bl y hyl
          · exact hxv
        have hbst2 : BST (rebalance (Tree.node v h l' r)) :=
          rebalance_BST (t := Tree.node v h l' r) ⟨ihbst, bstr, hbl', br⟩
        have hio : inorder (rebalance (Tree.node v h l' r)) =
            inorder l' ++ v :: inorder r := rebalance_inorder _
        have hsz : size (rebalance (Tree.node v h l' r)) =
            size (Tree.node v h l' r) := rebalance_size _
        simp only [e1]
        generalize hR : rebalance (Tree.node v h l' r) = R
          at mok mbal mh1 mh2 mh3 hbst2 hio hsz ⊢
        refine ⟨mok, mbal, hbst2, ?_, ?_, ?_, ?_, ?_, ?_⟩
        · simp only [mem_inorder_node]
          constructor
          · intro _
            push_neg
            exact ⟨ihflag.mp rfl, ne_of_lt hxv, hnr⟩
          · intro _; trivial
        · intro y
          rw [hio]
          simp only [mem_inorder_node, List.mem_append, List.mem_cons, ihmem y]
          constructor
          · rintro ((h1 | h1) | h1 | h1)
            · exact Or.inl (Or.inl h1)
            · exact Or.inr h1
            · exact Or.inl (Or.inr (Or.inl h1))
            · exact Or.inl (Or.inr (Or.inr h1))
          · rintro ((h1 | h1 | h1) | h1)
            · exact Or.inl (Or.inl h1)
            · exact Or.inr (Or.inl h1)
            · exact Or.inr (Or.inr h1)
            · exact Or.inl (Or.inr h1)
        · simp only [hgt_node] at mh1 mh2 mh3 ⊢; omega
        · simp only [hgt_node] at mh1 mh2 mh3 ⊢; omega
        · intro hc; exact absurd hc (by simp)
        · rw [hsz]
          simp only [size_node, ihsize]
          simp
          omega
      | false =>
        have hl' : l' = l := ihsame rfl
        subst hl'
        have e1 : insertAux (Tree.node v h l' r) x = (.node v h l' r, false) := by
          simp only [insertAux]
          rw [if_pos hxv, hp]
          rfl
        have hxl : x ∈ inorder l' := by
          by_contra hc
          exact Bool.false_ne_true (ihflag.mpr hc)
        simp only [e1]
        refine ⟨⟨hokl, hokr, hh⟩, ⟨ball, balr, dl, dr⟩, ⟨bstl, bstr, bl, br⟩,
          ?_, ?_, le_refl _, by omega, fun _ => trivial, by simp⟩
        · simp only [mem_inorder_node]
          constructor
          · intro hc; exact absurd hc (by simp)
          · intro hc; exact absurd (Or.inl hxl) hc
        · intro y; simp only [mem_inorder_node]
          constructor
          · intro hy; exact Or.inl hy
          · rintro (hy | rfl)
            · exact hy
            · exact Or.inl hxl
    · -- x = v: duplicate, unchanged
      subst hxv
      have e1 : insertAux (Tree.node x h l r) x = (.node x h l r, false) := by
        simp only [insertAux]
        rw [if_neg (lt_irrefl x), if_neg (lt_irrefl x)]
      simp only [e1]
      refine ⟨⟨hokl, hokr, hh⟩, ⟨ball, balr, dl, dr⟩, ⟨bstl, bstr, bl, br⟩,
        ?_, ?_, le_refl _, by omega, fun _ => trivial, by simp⟩
      · simp only [mem_inorder_node]
        constructor
        · intro hc; exact absurd hc (by simp)
        · intro hc; exact absurd (Or.inr (Or.inl trivial)) hc
      · intro y; simp only [mem_inorder_node]
        constructor
        · intro hy; exact Or.inl hy
        · rintro (hy | rfl)
          · exact hy
          · exact Or.inr (Or.inl rfl)
    · -- v < x: recurse into the right child
      obtain ⟨ihok, ihbal, ihbst, ihflag, ihmem, ihh1, ihh2, ihsame, ihsize⟩ :=
        ihr hokr balr bstr
      have hnl : ¬ x ∈ inorder l := fun hx => lt_asymm hxv (bl x hx)
      have hnv : ¬ x < v := lt_asymm hxv
      rcases hp : insertAux r x with ⟨r', ins⟩
      simp only [hp] at ihok ihbal ihbst ihflag ihmem ihh1 ihh2 ihsame ihsize
      cases ins with
      | true =>
        have e1 : insertAux (Tree.node v h l r) x =
            (rebalance (.node v h l r'), true) := by
          simp only [insertAux]
          rw [if_neg hnv, if_pos hxv, hp]
          rfl
        obtain ⟨mok, mbal, mh1, mh2, mh3, _⟩ :=
          rebalance_main (v := v) (h := h) (l := l) (r := r')
            hokl ihok ball ihbal (by omega) (by omega)
        have hbr' : ∀ y ∈ inorder r', v < y := by
          intro y hy
          rcases (ihmem y).mp hy with hyr | rfl
          · exact br y hyr
          · exact hxv
        have hbst2 : BST (rebalance (Tree.node v h l r')) :=
          rebalance_BST (t := Tree.node v h l r') ⟨bstl, ihbst, bl, hbr'⟩
        have hio : inorder (rebalance (Tree.node v h l r')) =
            inorder l ++ v :: inorder r' := rebalance_inorder _
        have hsz : size (rebalance (Tree.node v h l r')) =
            size (Tree.node v h l r') := rebalance_size _
        simp only [e1]
        generalize hR : rebalance (Tree.node v h l r') = R
          at mok mbal mh1 mh2 mh3 hbst2 hio hsz ⊢
        refine ⟨mok, mbal, hbst2, ?_, ?_, ?_, ?_, ?_, ?_⟩
        · simp only [mem_inorder_node]
          constructor
          · intro _
            push_neg
            exact ⟨hnl, ne_of_gt hxv, ihflag.mp rfl⟩
          · intro _; trivial
        · intro y
          rw [hio]
          simp only [mem_inorder_node, List.mem_append, List.mem_cons, ihmem y]
          constructor
          · rintro (h1 | h1 | h1 | h1)
            · exact Or.inl (Or.inl h1)
            · exact Or.inl (Or.inr (Or.inl h1))
            · exact Or.inl (Or.inr (Or.inr h1))
            · exact Or.inr h1
          · rintro ((h1 | h1 | h1) | h1)
            · exact Or.inl h1
            · exact Or.inr (Or.inl h1)
            · exact Or.inr (Or.inr (Or.inl h1))
            · exact Or.inr (Or.inr (Or.inr h1))
        · simp only [hgt_node] at mh1 mh2 mh3 ⊢; omega
        · simp only [hgt_node] at mh1 mh2 mh3 ⊢; omega
        · intro hc; exact absurd hc (by simp)
        · rw [hsz]
          simp only [size_node, ihsize]
          simp
          omega
      | false =>
        have hr' : r' = r := ihsame rfl
        subst hr'
        have e1 : insertAux (Tree.node v h l r') x = (.node v h l r', false) := by
          simp only [insertAux]
          rw [if_neg hnv, if_pos hxv, hp]
          rfl
        have hxr : x ∈ inorder r' := by
          by_contra hc
          exact Bool.false_ne_true (ihflag.mpr hc)
        simp only [e1]
        refine ⟨⟨hokl, hokr, hh⟩, ⟨ball, balr, dl, dr⟩, ⟨bstl, bstr, bl, br⟩,
          ?_, ?_, le_refl _, by omega, fun _ => trivial, by simp⟩
        · simp only [mem_inorder_node]
          constructor
          · intro hc; exact absurd hc (by simp)
          · intro hc; exact absurd (Or.inr (Or.inr hxr)) hc
        · intro y; simp only [mem_inorder_node]
          constructor
          · intro hy; exact Or.inl hy
          · rintro (hy | rfl)
            · exact hy
            · exact Or.inr (Or.inr hxr)


/-! ### The `take_min` contract -/

theorem takeMin_spec {t : Tree α} (hok : HOk t) (bal : Bal t) (hne : t ≠ .nil) :
    ∃ m mh t', takeMin t = (some (.node m mh .nil .nil), t') ∧
      HOk t' ∧ Bal t' ∧ hgt t' ≤ hgt t ∧ hgt t ≤ hgt t' + 1 ∧
      inorder t = m :: inorder t' ∧ size t = size t' + 1 := by
  induction t with
  | nil => exact absurd rfl hne
  | node v h l r ihl ihr =>
    obtain ⟨hokl, hokr, hh⟩ := hok
    obtain ⟨ball, balr, dl, dr⟩ := bal
    rcases hln : l with _ | ⟨lv, lh, ll, lr⟩
    · -- the left child is empty: this node is the minimum
      refine ⟨v, h, r, by simp [takeMin], hokr, balr, ?_, ?_, by simp, by simp⟩
      · subst hln
        simp only [hgt_node, hgt_nil] at hh ⊢
        omega
      · subst hln
        simp only [hgt_node, hgt_nil] at hh ⊢
        omega
    · -- recurse along the left spine
      subst hln
      obtain ⟨m, mh, l', e, hok', bal', hh1, hh2, hio, hsz⟩ :=
        ihl hokl ball (by simp)
      have e1 : takeMin (Tree.node v h (Tree.node lv lh ll lr) r) =
          (some (.node m mh .nil .nil), rebalance (.node v h l' r)) := by
        have e0 : takeMin (Tree.node v h (Tree.node lv lh ll lr) r) =
            (match takeMin (Tree.node lv lh ll lr) with
              | (some mm, ll') => (some mm, rebalance (.node v h ll' r))
              | (none, _) => (some (.node v h .nil .nil), r)) := rfl
        rw [e0, e]
      obtain ⟨mok, mbal, mh1, mh2, mh3, _⟩ :=
        rebalance_main (v := v) (h := h) (l := l') (r := r)
          hok' hokr bal' balr (by simp only [hgt_node] at *; omega)
          (by simp only [hgt_node] at *; omega)
      have hio2 : inorder (rebalance (Tree.node v h l' r)) =
          inorder l' ++ v :: inorder r := rebalance_inorder _
      have hsz2 : size (rebalance (Tree.node v h l' r)) =
          size (Tree.node v h l' r) := rebalance_size _
      refine ⟨m, mh, rebalance (.node v h l' r), e1, mok, mbal, ?_, ?_, ?_, ?_⟩
      · simp only [hgt_node] at *; omega
      · simp only [hgt_node] at *; omega
      · rw [inorder_node, hio, hio2]
        simp
      · simp only [hsz2, size_node, hsz]
        omega

/-! ### The `merge` contract -/

theorem merge_spec {l r : Tree α} (hokl : HOk l) (hokr : HOk r)
    (ball : Bal l) (balr : Bal r) (hne : r ≠ .nil)
    (d1 : hgt l ≤ hgt r + 1) (d2 : hgt r ≤ hgt l + 2) :
    ∃ m mh r', takeMin r = (some (.node m mh .nil .nil), r') ∧
      merge l r = rebalance (.node m mh l r') ∧
      inorder r = m :: inorder r' ∧
      HOk (merge l r) ∧ Bal (merge l r) ∧
      inorder (merge l r) = inorder l ++ inorder r ∧
      max (hgt l) (hgt r) ≤ hgt (merge l r) ∧
      hgt (merge l r) ≤ 1 + max (hgt l) (hgt r) ∧
      size (merge l r) = size l + size r ∧
      mergeP l r = some (merge l r) := by
  obtain ⟨m, mh, r', e, hok', bal', hh1, hh2, hio, hsz⟩ :=
    takeMin_spec hokr balr hne
  have e1 : merge l r = rebalance (.node m mh l r') := by
    have e0 : merge l r =
        (match takeMin r with
          | (some (.node mv mhh _ _), rr') => rebalance (.node mv mhh l rr')
          | _ => .nil) := rfl
    rw [e0, e]
  have e2 : mergeP l r = rebalanceP (.node m mh l r') := by
    have e0 : mergeP l r =
        (match takeMin r with
          | (some (.node mv mhh _ _), rr') => rebalanceP (.node mv mhh l rr')
          | _ => none) := rfl
    rw [e0, e]
  obtain ⟨mok, mbal, mh1, mh2, mh3, mp⟩ :=
    rebalance_main (v := m) (h := mh) (l := l) (r := r')
      hokl hok' ball bal' (by omega) (by omega)
  have hio2 : inorder (rebalance (Tree.node m mh l r')) =
      inorder l ++ m :: inorder r' := rebalance_inorder _
  have hsz2 : size (rebalance (Tree.node m mh l r')) =
      size (Tree.node m mh l r') := rebalance_size _
  refine ⟨m, mh, r', e, e1, hio, ?_, ?_, ?_, ?_, ?_, ?_, ?_⟩
  · rw [e1]; exact mok
  · rw [e1]; exact mbal
  · rw [e1, hio2, hio]
  · rw [e1]
    simp only [hgt_node] at *
    omega
  · rw [e1]
    simp only [hgt_node] at *
    omega
  · rw [e1, hsz2, size_node, hsz]
    omega
  · rw [e2, e1]
    exact mp


/-! ### The `remove` contract -/

set_option maxHeartbeats 1000000 in
theorem removeAux_spec [LinearOrder α] (x : α) {t : Tree α}
    (hok : HOk t) (bal : Bal t) (bst : BST t) :
    HOk (removeAux t x).1 ∧ Bal (removeAux t x).1 ∧ BST (removeAux t x).1 ∧
    ((removeAux t x).2 = true ↔ x ∈ inorder t) ∧
    (∀ y, y ∈ inorder (removeAux t x).1 ↔ (y ∈ inorder t ∧ y ≠ x)) ∧
    hgt (removeAux t x).1 ≤ hgt t ∧ hgt t ≤ hgt (removeAux t x).1 + 1 ∧
    ((removeAux t x).2 = false → (removeAux t x).1 = t) ∧
    size t = size (removeAux t x).1 + (if (removeAux t x).2 = true then 1 else 0) := by
  induction t with
  | nil =>
    refine ⟨trivial, trivial, trivial, by simp [removeAux], by simp [removeAux],
      by simp [removeAux, hgt], by simp [removeAux, hgt], fun _ => rfl,
      by simp [removeAux]⟩
  | node v h l r ihl ihr =>
    obtain ⟨hokl, hokr, hh⟩ := hok
    obtain ⟨ball, balr, dl, dr⟩ := bal
    obtain ⟨bstl, bstr, bl, br⟩ := bst
    rcases lt_trichotomy x v with hxv | hxv | hxv
    · -- x < v: recurse into the left child
      obtain ⟨ihok, ihbal, ihbst, ihflag, ihmem, ihh1, ihh2, ihsame, ihsize⟩ :=
        ihl hokl ball bstl
      have hnr : ¬ x ∈ inorder r := fun hx => lt_asymm hxv (br x hx)
      rcases hp : removeAux l x with ⟨l', ins⟩
      simp only [hp] at ihok ihbal ihbst ihflag ihmem ihh1 ihh2 ihsame ihsize
      cases ins with
      | true =>
        have e1 : removeAux (Tree.node v h l r) x =
            (rebalance (.node v h l' r), true) := by
          simp only [removeAux]
          rw [if_pos hxv, hp]
          rfl
        obtain ⟨mok, mbal, mh1, mh2, mh3, _⟩ :=
          rebalance_main (v := v) (h := h) (l := l') (r := r)
            ihok hokr ihbal balr (by omega) (by omega)
        have hbl' : ∀ y ∈ inorder l', y < v :=
          fun y hy => bl y ((ihmem y).mp hy).1
        have hbst2 : BST (rebalance (Tree.node v h l' r)) :=
          rebalance_BST (t := Tree.node v h l' r) ⟨ihbst, bstr, hbl', br⟩
        have hio : inorder (rebalance (Tree.node v h l' r)) =
            inorder l' ++ v :: inorder r := rebalance_inorder _
        have hsz : size (rebalance (Tree.node v h l' r)) =
            size (Tree.node v h l' r) := rebalance_size _
        simp only [e1]
        generalize hR : rebalance (Tree.node v h l' r) = R
          at mok mbal mh1 mh2 mh3 hbst2 hio hsz ⊢
        refine ⟨mok, mbal, hbst2, ?_, ?_, ?_, ?_, ?_, ?_⟩
        · simp only [mem_inorder_node]
          exact ⟨fun _ => Or.inl (ihflag.mp rfl), fun _ => trivial⟩
        · intro y
          rw [hio]
          simp only [mem_inorder_node, List.mem_append, List.mem_cons, ihmem y]
          constructor
          · rintro (⟨hy, hne⟩ | rfl | hy)
            · exact ⟨Or.inl hy, hne⟩
            · exact ⟨Or.inr (Or.inl rfl), ne_of_gt hxv⟩
            · exact ⟨Or.inr (Or.inr hy), ne_of_gt (lt_trans hxv (br y hy))⟩
          · rintro ⟨hy | rfl | hy, hne⟩
            · exact Or.inl ⟨hy, hne⟩
            · exact Or.inr (Or.inl rfl)
            · exact Or.inr (Or.inr hy)
        · simp only [hgt_node] at mh1 mh2 mh3 ⊢; omega
        · simp only [hgt_node] at mh1 mh2 mh3 ⊢; omega
        · intro hc; exact absurd hc (by simp)
        · rw [hsz]
          simp only [size_node, ihsize]
          simp
          omega
      | false =>
        have hl' : l' = l := ihsame rfl
        subst hl'
        have e1 : removeAux (Tree.node v h l' r) x = (.node v h l' r, false) := by
          simp only [removeAux]
          rw [if_pos hxv, hp]
          rfl
        have hnl : ¬ x ∈ inorder l' := fun hx =>
          Bool.false_ne_true (ihflag.mpr hx)
        have hnt : ¬ x ∈ inorder (Tree.node v h l' r) := by
          simp only [mem_inorder_node]
          push_neg
          exact ⟨hnl, ne_of_lt hxv, hnr⟩
        simp only [e1]
        refine ⟨⟨hokl, hokr, hh⟩, ⟨ball, balr, dl, dr⟩, ⟨bstl, bstr, bl, br⟩,
          ?_, ?_, le_refl _, by omega, fun _ => trivial, by simp⟩
        · constructor
          · intro hc; exact absurd hc (by simp)
          · intro hc; exact absurd hc hnt
        · intro y
          constructor
          · intro hy
            refine ⟨hy, ?_⟩
            rintro rfl
            exact hnt hy
          · rintro ⟨hy, _⟩; exact hy
    · -- x = v: this node is removed
      subst hxv
      have hni : ¬ x < x := lt_irrefl x
      rcases l with _ | ⟨lv, lh, ll, lr⟩ <;> rcases r with _ | ⟨rv, rh, rl, rr⟩
      · -- both children absent
        have e1 : removeAux (Tree.node x h .nil .nil) x = (.nil, true) := by
          simp only [removeAux]
          rw [if_neg hni, if_neg hni]
        simp only [e1]
        refine ⟨trivial, trivial, trivial, ?_, ?_, ?_, ?_, ?_, ?_⟩
        · simp
        · intro y; simp only [mem_inorder_node, inorder_nil]
          constructor
          · intro hy; exact absurd hy (by simp)
          · rintro ⟨hy | rfl | hy, hne⟩
            · exact absurd hy (by simp)
            · exact absurd rfl hne
            · exact absurd hy (by simp)
        · simp only [hgt_node, hgt_nil]; omega
        · simp only [hgt_nil, hgt_node] at hh ⊢; omega
        · intro hc; exact absurd hc (by simp)
        · simp
      · -- only the right child present
        have e1 : removeAux (Tree.node x h .nil (.node rv rh rl rr)) x =
            (.node rv rh rl rr, true) := by
          simp only [removeAux]
          rw [if_neg hni, if_neg hni]
        simp only [e1]
        refine ⟨hokr, balr, bstr, by simp, ?_, ?_, ?_, ?_, by simp⟩
        · intro y
          simp only [mem_inorder_node, inorder_nil]
          constructor
          · intro hy
            exact ⟨Or.inr (Or.inr hy), ne_of_gt (br y (mem_inorder_node.mpr hy))⟩
          · rintro ⟨hy | rfl | hy, hne⟩
            · exact absurd hy (by simp)
            · exact absurd rfl hne
            · exact hy
        · simp only [hgt_node, hgt_nil] at hh ⊢; omega
        · simp only [hgt_node, hgt_nil] at hh ⊢; omega
        · intro hc; exact absurd hc (by simp)
      · -- only the left child present
        have e1 : removeAux (Tree.node x h (.node lv lh ll lr) .nil) x =
            (.node lv lh ll lr, true) := by
          simp only [removeAux]
          rw [if_neg hni, if_neg hni]
        simp only [e1]
        refine ⟨hokl, ball, bstl, by simp, ?_, ?_, ?_, ?_, by simp⟩
        · intro y
          simp only [mem_inorder_node, inorder_nil]
          constructor
          · intro hy
            exact ⟨Or.inl hy, ne_of_lt (bl y (mem_inorder_node.mpr hy))⟩
          · rintro ⟨hy | rfl | hy, hne⟩
            · exact hy
            · exact absurd rfl hne
            · exact absurd hy (by simp)
        · simp only [hgt_node, hgt_nil] at hh ⊢; omega
        · simp only [hgt_node, hgt_nil] at hh ⊢; omega
        · intro hc; exact absurd hc (by simp)
      · -- two children: merge the subtrees
        have e1 : removeAux (Tree.node x h (.node lv lh ll lr) (.node rv rh rl rr)) x =
            (merge (.node lv lh ll lr) (.node rv rh rl rr), true) := by
          simp only [removeAux]
          rw [if_neg hni, if_neg hni]
        obtain ⟨m, mh, r', e, e1m, hio, mok, mbal, mior, mhh1, mhh2, msz, _⟩ :=
          merge_spec (l := Tree.node lv lh ll lr) (r := Tree.node rv rh rl rr)
            hokl hokr ball balr (by simp)
            (by simp only [hgt_node] at *; omega)
            (by simp only [hgt_node] at *; omega)
        have hxm : x < m := br m (by rw [hio]; exact List.mem_cons_self m _)
        have hmr' : ∀ b ∈ inorder r', m < b := by
          have hs := (bst_iff_sorted (Tree.node rv rh rl rr)).mp bstr
          rw [hio] at hs
          exact fun b hb => (List.sorted_cons.mp hs).1 b hb
        have hbstr' : BST r' := by
          have hs := (bst_iff_sorted (Tree.node rv rh rl rr)).mp bstr
          rw [hio] at hs
          exact (bst_iff_sorted r').mpr (List.sorted_cons.mp hs).2
        have hbst2 : BST (merge (.node lv lh ll lr) (.node rv rh rl rr)) := by
          rw [e1m]
          exact rebalance_BST (t := Tree.node m mh (.node lv lh ll lr) r')
            ⟨bstl, hbstr', fun y hy => lt_trans (bl y hy) hxm, hmr'⟩
        simp only [e1]
        generalize hM : merge (.node lv lh ll lr) (.node rv rh rl rr) = M
          at mok mbal mior mhh1 mhh2 msz hbst2 ⊢
        refine ⟨mok, mbal, hbst2, by simp, ?_, ?_, ?_, ?_, ?_⟩
        · intro y
          rw [mior]
          simp only [mem_inorder_node, List.mem_append]
          constructor
          · rintro (hy | hy)
            · exact ⟨Or.inl hy, ne_of_lt (bl y (mem_inorder_node.mpr hy))⟩
            · exact ⟨Or.inr (Or.inr hy), ne_of_gt (br y (mem_inorder_node.mpr hy))⟩
          · rintro ⟨hy | rfl | hy, hne⟩
            · exact Or.inl hy
            · exact absurd rfl hne
            · exact Or.inr hy
        · simp only [hgt_node] at mhh1 mhh2 hh dl dr ⊢; omega
        · simp only [hgt_node] at mhh1 mhh2 hh dl dr ⊢; omega
        · intro hc; exact absurd hc (by simp)
        · rw [msz]
          simp
    · -- v < x: recurse into the right child
      obtain ⟨ihok, ihbal, ihbst, ihflag, ihmem, ihh1, ihh2, ihsame, ihsize⟩ :=
        ihr hokr balr bstr
      have hnl : ¬ x ∈ inorder l := fun hx => lt_asymm hxv (bl x hx)
      have hnv : ¬ x < v := lt_asymm hxv
      rcases hp : removeAux r x with ⟨r', ins⟩
      simp only [hp] at ihok ihbal ihbst ihflag ihmem ihh1 ihh2 ihsame ihsize
      cases ins with
      | true =>
        have e1 : removeAux (Tree.node v h l r) x =
            (rebalance (.node v h l r'), true) := by
          simp only [removeAux]
          rw [if_neg hnv, if_pos hxv, hp]
          rfl
        obtain ⟨mok, mbal, mh1, mh2, mh3, _⟩ :=
          rebalance_main (v := v) (h := h) (l := l) (r := r')
            hokl ihok ball ihbal (by omega) (by omega)
        have hbr' : ∀ y ∈ inorder r', v < y :=
          fun y hy => br y ((ihmem y).mp hy).1
        have hbst2 : BST (rebalance (Tree.node v h l r')) :=
          rebalance_BST (t := Tree.node v h l r') ⟨bstl, ihbst, bl, hbr'⟩
        have hio : inorder (rebalance (Tree.node v h l r')) =
            inorder l ++ v :: inorder r' := rebalance_inorder _
        have hsz : size (rebalance (Tree.node v h l r')) =
            size (Tree.node v h l r') := rebalance_size _
        simp only [e1]
        generalize hR : rebalance (Tree.node v h l r') = R
          at mok mbal mh1 mh2 mh3 hbst2 hio hsz ⊢
        refine ⟨mok, mbal, hbst2, ?_, ?_, ?_, ?_, ?_, ?_⟩
        · simp only [mem_inorder_node]
          exact ⟨fun _ => Or.inr (Or.inr (ihflag.mp rfl)), fun _ => trivial⟩
        · intro y
          rw [hio]
          simp only [mem_inorder_node, List.mem_append, List.mem_cons, ihmem y]
          constructor
          · rintro (hy | rfl | ⟨hy, hne⟩)
            · exact ⟨Or.inl hy, ne_of_lt (lt_trans (bl y hy) hxv)⟩
            · exact ⟨Or.inr (Or.inl rfl), ne_of_lt hxv⟩
            · exact ⟨Or.inr (Or.inr hy), hne⟩
          · rintro ⟨hy | rfl | hy, hne⟩
            · exact Or.inl hy
            · exact Or.inr (Or.inl rfl)
            · exact Or.inr (Or.inr ⟨hy, hne⟩)
        · simp only [hgt_node] at mh1 mh2 mh3 ⊢; omega
        · simp only [hgt_node] at mh1 mh2 mh3 ⊢; omega
        · intro hc; exact absurd hc (by simp)
        · rw [hsz]
          simp only [size_node, ihsize]
          simp
          omega
      | false =>
        have hr' : r' = r := ihsame rfl
        subst hr'
        have e1 : removeAux (Tree.node v h l r') x = (.node v h l r', false) := by
          simp only [removeAux]
          rw [if_neg hnv, if_pos hxv, hp]
          rfl
        have hnr : ¬ x ∈ inorder r' := fun hx =>
          Bool.false_ne_true (ihflag.mpr hx)
        have hnt : ¬ x ∈ inorder (Tree.node v h l r') := by
          simp only [mem_inorder_node]
          push_neg
          exact ⟨hnl, ne_of_gt hxv, hnr⟩
        simp only [e1]
        refine ⟨⟨hokl, hokr, hh⟩, ⟨ball, balr, dl, dr⟩, ⟨bstl, bstr, bl, br⟩,
          ?_, ?_, le_refl _, by omega, fun _ => trivial, by simp⟩
        · constructor
          · intro hc; exact absurd hc (by simp)
          · intro hc; exact absurd hc hnt
        · intro y
          constructor
          · intro hy
            refine ⟨hy, ?_⟩
            rintro rfl
            exact hnt hy
          · rintro ⟨hy, _⟩; exact hy


/-! ### The `contains` contract -/

theorem containsAux_iff [LinearOrder α] {t : Tree α} (bst : BST t) (x : α) :
    containsAux t x = true ↔ x ∈ inorder t := by
  induction t with
  | nil => simp [containsAux]
  | node v h l r ihl ihr =>
    obtain ⟨bstl, bstr, bl, br⟩ := bst
    rcases lt_trichotomy x v with hxv | hxv | hxv
    · have hnr : ¬ x ∈ inorder r := fun hx => lt_asymm hxv (br x hx)
      have e : containsAux (Tree.node v h l r) x = containsAux l x := by
        simp only [containsAux]
        rw [if_pos hxv]
      rw [e, ihl bstl]
      simp only [mem_inorder_node]
      constructor
      · exact Or.inl
      · rintro (hy | rfl | hy)
        · exact hy
        · exact absurd hxv (lt_irrefl x)
        · exact absurd hy hnr
    · subst hxv
      have e : containsAux (Tree.node x h l r) x = true := by
        simp only [containsAux]
        rw [if_neg (lt_irrefl x), if_neg (lt_irrefl x)]
      rw [e]
      simp only [mem_inorder_node]
      exact ⟨fun _ => Or.inr (Or.inl trivial), fun _ => trivial⟩
    · have hnl : ¬ x ∈ inorder l := fun hx => lt_asymm hxv (bl x hx)
      have e : containsAux (Tree.node v h l r) x = containsAux r x := by
        simp only [containsAux]
        rw [if_neg (lt_asymm hxv), if_pos hxv]
      rw [e, ihr bstr]
      simp only [mem_inorder_node]
      constructor
      · exact fun hy => Or.inr (Or.inr hy)
      · rintro (hy | rfl | hy)
        · exact absurd hy hnl
        · exact absurd hxv (lt_irrefl x)
        · exact hy

/-! ### The iterator yields exactly the in-order list -/

theorem drain_pushLeftChain (t : Tree α) (s : List (α × Tree α)) :
    drain (pushLeftChain t s) = inorder t ++ drain s := by
  induction t generalizing s with
  | nil => simp [pushLeftChain]
  | node v h l r ihl ihr =>
    rw [pushLeftChain, ihl]
    have e : drain ((v, r) :: s) = v :: drain (pushLeftChain r s) := by
      rw [drain]
    rw [e, ihr]
    simp

theorem iterList_eq_inorder (t : AVLTree α) : t.iterList = inorder t.root := by
  rw [AVLTree.iterList, nodeIterStack, drain_pushLeftChain]
  have e : drain ([] : List (α × Tree α)) = [] := by rw [drain]
  rw [e]
  simp

/-! ### Decidability of the invariants (for concrete evaluation) -/

instance decHOk : (t : Tree α) → Decidable (HOk t)
  | .nil => .isTrue trivial
  | .node v h l r =>
    haveI := decHOk l
    haveI := decHOk r
    decidable_of_iff (HOk l ∧ HOk r ∧ h = 1 + max (hgt l) (hgt r)) Iff.rfl

instance decBal : (t : Tree α) → Decidable (Bal t)
  | .nil => .isTrue trivial
  | .node v h l r =>
    haveI := decBal l
    haveI := decBal r
    decidable_of_iff (Bal l ∧ Bal r ∧ hgt l ≤ hgt r + 1 ∧ hgt r ≤ hgt l + 1)
      Iff.rfl

instance decBST [LinearOrder α] : (t : Tree α) → Decidable (BST t)
  | .nil => .isTrue trivial
  | .node v h l r =>
    haveI := decBST l
    haveI := decBST r
    decidable_of_iff
      (BST l ∧ BST r ∧ (∀ y ∈ inorder l, y < v) ∧ (∀ y ∈ inorder r, v < y))
      Iff.rfl

instance decAvl [LinearOrder α] (t : Tree α) : Decidable (Avl t) :=
  decidable_of_iff (HOk t ∧ Bal t ∧ BST t) Iff.rfl

instance decInv [LinearOrder α] (t : AVLTree α) : Decidable (Inv t) :=
  decidable_of_iff (Avl t.root ∧ t.length = size t.root) Iff.rfl

/-! ### Reachability and real heights -/

theorem hgt_eq_realHeight {t : Tree α} (hok : HOk t) : hgt t = realHeight t := by
  induction t with
  | nil => rfl
  | node v h l r ihl ihr =>
    obtain ⟨hokl, hokr, hh⟩ := hok
    simp only [hgt_node, realHeight, hh, ihl hokl, ihr hokr]

theorem reach_hok_bal {t u : Tree α} (hok : HOk t) (bal : Bal t)
    (hr : Reach t u) : HOk u ∧ Bal u := by
  induction hr with
  | refl => exact ⟨hok, bal⟩
  | left _ ih => exact ih hok.1 bal.1
  | right _ ih => exact ih hok.2.1 bal.2.1

theorem size_eq_zero_iff {t : Tree α} : size t = 0 ↔ t = .nil := by
  cases t <;> simp

/-! ### Invariant preservation by the public operations -/

theorem inv_new [LinearOrder α] : Inv (AVLTree.new : AVLTree α) :=
  ⟨⟨trivial, trivial, trivial⟩, rfl⟩

theorem inv_insert [LinearOrder α] {t : AVLTree α} (hinv : Inv t) (x : α) :
    Inv (t.insert x).1 := by
  obtain ⟨⟨hok, bal, bst⟩, hlen⟩ := hinv
  obtain ⟨mok, mbal, mbst, _, _, _, _, _, msize⟩ := insertAux_spec x hok bal bst
  refine ⟨⟨mok, mbal, mbst⟩, ?_⟩
  simp only [AVLTree.insert]
  rw [msize, hlen]
  cases hf : (insertAux t.root x).2 <;> simp [hf]

theorem inv_remove [LinearOrder α] {t : AVLTree α} (hinv : Inv t) (x : α) :
    Inv (t.remove x).1 := by
  obtain ⟨⟨hok, bal, bst⟩, hlen⟩ := hinv
  obtain ⟨mok, mbal, mbst, _, _, _, _, _, msize⟩ := removeAux_spec x hok bal bst
  refine ⟨⟨mok, mbal, mbst⟩, ?_⟩
  simp only [AVLTree.remove]
  rw [hlen, msize]
  cases hf : (removeAux t.root x).2 <;> simp [hf]

theorem inv_applyOps [LinearOrder α] {t : AVLTree α} (hinv : Inv t)
    (ops : List (Op α)) : Inv (applyOps t ops) := by
  induction ops generalizing t with
  | nil => exact hinv
  | cons o os ih =>
    cases o with
    | ins x => exact ih (inv_insert hinv x)
    | del x => exact ih (inv_remove hinv x)

theorem inv_fromList [LinearOrder α] (xs : List α) :
    Inv (AVLTree.fromList xs) := by
  rw [AVLTree.fromList]
  have key : ∀ (ys : List α) (acc : AVLTree α), Inv acc →
      Inv (ys.foldl (fun t x => (t.insert x).1) acc) := by
    intro ys
    induction ys with
    | nil => exact fun acc h => h
    | cons y ys ih => exact fun acc h => ih _ (inv_insert h y)
  exact key xs AVLTree.new inv_new


/-! ### Claim theorems -/

/-- Claim C1: for every finite sequence of insert and remove operations
applied to an initially empty tree, every node reachable from the root
afterwards satisfies `|height(left subtree) - height(right subtree)| <= 1`
(heights being the actual subtree heights). -/
theorem claim_C1_balance [LinearOrder α] (ops : List (Op α)) (v : α) (h : Nat)
    (l r : Tree α)
    (hr : Reach (applyOps (AVLTree.new : AVLTree α) ops).root (.node v h l r)) :
    ((realHeight l : Int) - (realHeight r : Int)).natAbs ≤ 1 := by
  obtain ⟨⟨hok, bal, _⟩, _⟩ := inv_applyOps inv_new ops
  obtain ⟨hoku, balu⟩ := reach_hok_bal hok bal hr
  obtain ⟨hokl, hokr, _⟩ := hoku
  obtain ⟨_, _, d1, d2⟩ := balu
  rw [← hgt_eq_realHeight hokl, ← hgt_eq_realHeight hokr]
  omega

/-- Witness for C1 at a concrete operation sequence. -/
theorem claim_C1_witness :
    Reach (applyOps (AVLTree.new : AVLTree ℤ) [Op.ins 1, Op.ins 2]).root
      (.node 1 2 .nil (.node 2 1 .nil .nil)) ∧
    ((realHeight (.nil : Tree ℤ) : Int) -
      (realHeight (Tree.node (2 : ℤ) 1 .nil .nil) : Int)).natAbs ≤ 1 := by
  have e : (applyOps (AVLTree.new : AVLTree ℤ) [Op.ins 1, Op.ins 2]).root =
      Tree.node 1 2 .nil (.node 2 1 .nil .nil) := by decide
  have hre : Reach (applyOps (AVLTree.new : AVLTree ℤ) [Op.ins 1, Op.ins 2]).root
      (.node 1 2 .nil (.node 2 1 .nil .nil)) := by
    rw [e]
    exact Reach.refl _
  exact ⟨hre, claim_C1_balance [Op.ins 1, Op.ins 2] 1 2 .nil
    (.node 2 1 .nil .nil) hre⟩

/-- Claim C2: for every tree reachable by a sequence of inserts and removes
from the empty tree, `iter()` yields exactly the stored values (the
in-order list of the tree) in strictly ascending order with no
duplicates. -/
theorem claim_C2_iter [LinearOrder α] (ops : List (Op α)) :
    (applyOps (AVLTree.new : AVLTree α) ops).iterList =
      inorder (applyOps (AVLTree.new : AVLTree α) ops).root ∧
    ((applyOps (AVLTree.new : AVLTree α) ops).iterList).Sorted (· < ·) ∧
    ((applyOps (AVLTree.new : AVLTree α) ops).iterList).Nodup := by
  obtain ⟨⟨_, _, bst⟩, _⟩ := inv_applyOps inv_new ops
  have hs := (bst_iff_sorted _).mp bst
  refine ⟨iterList_eq_inorder _, ?_, ?_⟩
  · rw [iterList_eq_inorder]
    exact hs
  · rw [iterList_eq_inorder]
    exact hs.nodup

/-- Claim C3: for every valid tree and value, `insert` returns true iff the
value was absent; afterwards the tree contains the value and every
previously stored value, and the count is incremented exactly when the
insertion happened. -/
theorem claim_C3_insert [LinearOrder α] (t : AVLTree α) (hinv : Inv t) (x : α) :
    ((t.insert x).2 = true ↔ t.contains x = false) ∧
    (t.insert x).1.contains x = true ∧
    (∀ y, t.contains y = true → (t.insert x).1.contains y = true) ∧
    (t.insert x).1.len = t.len + (if (t.insert x).2 = true then 1 else 0) := by
  obtain ⟨⟨hok, bal, bst⟩, hlen⟩ := hinv
  obtain ⟨mok, mbal, mbst, mflag, mmem, _, _, _, msize⟩ :=
    insertAux_spec x hok bal bst
  have hco : ∀ y, t.contains y = true ↔ y ∈ inorder t.root :=
    fun y => containsAux_iff bst y
  have hcn : ∀ y, (t.insert x).1.contains y = true ↔
      y ∈ inorder (insertAux t.root x).1 :=
    fun y => containsAux_iff mbst y
  refine ⟨?_, ?_, ?_, ?_⟩
  · rw [show (t.insert x).2 = (insertAux t.root x).2 from rfl, mflag]
    constructor
    · intro hn
      cases hc : t.contains x with
      | false => rfl
      | true => exact absurd ((hco x).mp hc) hn
    · intro hf hx
      rw [(hco x).mpr hx] at hf
      simp at hf
  · rw [hcn x]
    exact (mmem x).mpr (Or.inr rfl)
  · intro y hy
    rw [hcn y]
    exact (mmem y).mpr (Or.inl ((hco y).mp hy))
  · show (if (insertAux t.root x).2 = true then t.length + 1 else t.length) =
      t.length + (if (insertAux t.root x).2 = true then 1 else 0)
    cases hf : (insertAux t.root x).2 <;> simp

/-- Witness for C3 at a concrete tree and value. -/
theorem claim_C3_witness :
    Inv (AVLTree.fromList [2, 1] : AVLTree ℤ) ∧
    (((AVLTree.fromList [2, 1] : AVLTree ℤ).insert 3).2 = true ↔
      (AVLTree.fromList [2, 1] : AVLTree ℤ).contains 3 = false) ∧
    ((AVLTree.fromList [2, 1] : AVLTree ℤ).insert 3).1.contains 3 = true ∧
    (∀ y, (AVLTree.fromList [2, 1] : AVLTree ℤ).contains y = true →
      ((AVLTree.fromList [2, 1] : AVLTree ℤ).insert 3).1.contains y = true) ∧
    ((AVLTree.fromList [2, 1] : AVLTree ℤ).insert 3).1.len =
      (AVLTree.fromList [2, 1] : AVLTree ℤ).len +
        (if ((AVLTree.fromList [2, 1] : AVLTree ℤ).insert 3).2 = true
          then 1 else 0) :=
  ⟨by decide, claim_C3_insert (AVLTree.fromList [2, 1]) (by decide) 3⟩

/-- Claim C4: for every valid tree and value, `remove` returns true iff the
value was present; afterwards the tree does not contain the value, every
other stored value is retained, and the count is decremented exactly when
the removal happened. -/
theorem claim_C4_remove [LinearOrder α] (t : AVLTree α) (hinv : Inv t) (x : α) :
    ((t.remove x).2 = true ↔ t.contains x = true) ∧
    (t.remove x).1.contains x = false ∧
    (∀ y, y ≠ x → t.contains y = true → (t.remove x).1.contains y = true) ∧
    ((t.remove x).2 = true → (t.remove x).1.len + 1 = t.len) ∧
    ((t.remove x).2 = false → (t.remove x).1.len = t.len) := by
  obtain ⟨⟨hok, bal, bst⟩, hlen⟩ := hinv
  obtain ⟨mok, mbal, mbst, mflag, mmem, _, _, _, msize⟩ :=
    removeAux_spec x hok bal bst
  have hco : ∀ y, t.contains y = true ↔ y ∈ inorder t.root :=
    fun y => containsAux_iff bst y
  have hcn : ∀ y, (t.remove x).1.contains y = true ↔
      y ∈ inorder (removeAux t.root x).1 :=
    fun y => containsAux_iff mbst y
  refine ⟨?_, ?_, ?_, ?_, ?_⟩
  · rw [show (t.remove x).2 = (removeAux t.root x).2 from rfl, mflag, hco x]
  · cases hc : (t.remove x).1.contains x with
    | false => rfl
    | true => exact absurd (((mmem x).mp ((hcn x).mp hc)).2) (by simp)
  · intro y hy hc
    rw [hcn y]
    exact (mmem y).mpr ⟨(hco y).mp hc, hy⟩
  · intro hf
    have hf' : (removeAux t.root x).2 = true := hf
    show (if (removeAux t.root x).2 = true then t.length - 1 else t.length) + 1 =
      t.length
    rw [hf', if_pos rfl]
    rw [hf', if_pos rfl] at msize
    omega
  · intro hf
    have hf' : (removeAux t.root x).2 = false := hf
    show (if (removeAux t.root x).2 = true then t.length - 1 else t.length) =
      t.length
    rw [hf']
    simp

/-- Witness for C4 at a concrete tree and value. -/
theorem claim_C4_witness :
    Inv (AVLTree.fromList [2, 1, 3] : AVLTree ℤ) ∧
    (((AVLTree.fromList [2, 1, 3] : AVLTree ℤ).remove 2).2 = true ↔
      (AVLTree.fromList [2, 1, 3] : AVLTree ℤ).contains 2 = true) ∧
    ((AVLTree.fromList [2, 1, 3] : AVLTree ℤ).remove 2).1.contains 2 = false ∧
    (∀ y, y ≠ 2 → (AVLTree.fromList [2, 1, 3] : AVLTree ℤ).contains y = true →
      ((AVLTree.fromList [2, 1, 3] : AVLTree ℤ).remove 2).1.contains y = true) ∧
    (((AVLTree.fromList [2, 1, 3] : AVLTree ℤ).remove 2).2 = true →
      ((AVLTree.fromList [2, 1, 3] : AVLTree ℤ).remove 2).1.len + 1 =
        (AVLTree.fromList [2, 1, 3] : AVLTree ℤ).len) ∧
    (((AVLTree.fromList [2, 1, 3] : AVLTree ℤ).remove 2).2 = false →
      ((AVLTree.fromList [2, 1, 3] : AVLTree ℤ).remove 2).1.len =
        (AVLTree.fromList [2, 1, 3] : AVLTree ℤ).len) :=
  ⟨by decide, claim_C4_remove (AVLTree.fromList [2, 1, 3]) (by decide) 2⟩


/-- Left operand of the merge counterexample: the perfectly balanced AVL
tree storing 1..7 (height 3, all caches correct). -/
def mergeCexL : Tree Int :=
  .node 4 3 (.node 2 2 (.node 1 1 .nil .nil) (.node 3 1 .nil .nil))
    (.node 6 2 (.node 5 1 .nil .nil) (.node 7 1 .nil .nil))

/-- Right operand of the merge counterexample: the single node 8. -/
def mergeCexR : Tree Int := .node 8 1 .nil .nil

/-- Counterexample to claim C5 as stated: two non-empty valid AVL subtrees
with `max(left) < min(right)` whose `merge` is NOT balanced — the single
rebalance cannot repair a height gap of two (here the merged root has
balance factor -3 and keeps a height-3 left child next to an absent right
child). -/
theorem claim_C5_counterexample :
    Avl mergeCexL ∧ Avl mergeCexR ∧ mergeCexL ≠ .nil ∧ mergeCexR ≠ .nil ∧
    (∀ a ∈ inorder mergeCexL, ∀ b ∈ inorder mergeCexR, a < b) ∧
    ¬ Bal (merge mergeCexL mergeCexR) := by decide

/-- Claim C5 (amended): the conclusion holds when additionally the left
height exceeds the right by at most one and the right exceeds the left by
at most two — as is guaranteed at the only call site, where both operands
are children of one node. `merge` then detaches the minimum of `right` via
`take_min`, makes it the root over the two remaining subtrees, rebalances
that root once, and yields a valid balanced subtree storing exactly the
union of the two value sets. -/
theorem claim_C5_merge [LinearOrder α] {l r : Tree α}
    (hl : Avl l) (hr : Avl r) (hnl : l ≠ .nil) (hnr : r ≠ .nil)
    (hord : ∀ a ∈ inorder l, ∀ b ∈ inorder r, a < b)
    (d1 : hgt l ≤ hgt r + 1) (d2 : hgt r ≤ hgt l + 2) :
    (∃ m mh r', takeMin r = (some (.node m mh .nil .nil), r') ∧
      merge l r = rebalance (.node m mh l r')) ∧
    Avl (merge l r) ∧
    (∀ y, y ∈ inorder (merge l r) ↔ (y ∈ inorder l ∨ y ∈ inorder r)) := by
  obtain ⟨hokl, ball, bstl⟩ := hl
  obtain ⟨hokr, balr, bstr⟩ := hr
  obtain ⟨m, mh, r', e, e1, hio, mok, mbal, mior, _, _, _, _⟩ :=
    merge_spec hokl hokr ball balr hnr d1 d2
  have hxm : ∀ a ∈ inorder l, a < m := fun a ha =>
    hord a ha m (by rw [hio]; exact List.mem_cons_self m _)
  have hs := (bst_iff_sorted r).mp bstr
  rw [hio] at hs
  have hmr' : ∀ b ∈ inorder r', m < b := fun b hb =>
    (List.sorted_cons.mp hs).1 b hb
  have hbstr' : BST r' := (bst_iff_sorted r').mpr (List.sorted_cons.mp hs).2
  have hbst : BST (merge l r) := by
    rw [e1]
    exact rebalance_BST (t := .node m mh l r') ⟨bstl, hbstr', hxm, hmr'⟩
  refine ⟨⟨m, mh, r', e, e1⟩, ⟨mok, mbal, hbst⟩, ?_⟩
  intro y
  rw [mior]
  simp [List.mem_append]

/-- Witness for the amended C5 at two concrete singleton subtrees. -/
theorem claim_C5_witness :
    (Avl (Tree.node (1 : ℤ) 1 .nil .nil) ∧ Avl (Tree.node (2 : ℤ) 1 .nil .nil) ∧
      (Tree.node (1 : ℤ) 1 .nil .nil) ≠ .nil ∧
      (Tree.node (2 : ℤ) 1 .nil .nil) ≠ .nil ∧
      (∀ a ∈ inorder (Tree.node (1 : ℤ) 1 .nil .nil),
        ∀ b ∈ inorder (Tree.node (2 : ℤ) 1 .nil .nil), a < b) ∧
      hgt (Tree.node (1 : ℤ) 1 .nil .nil) ≤
        hgt (Tree.node (2 : ℤ) 1 .nil .nil) + 1 ∧
      hgt (Tree.node (2 : ℤ) 1 .nil .nil) ≤
        hgt (Tree.node (1 : ℤ) 1 .nil .nil) + 2) ∧
    Avl (merge (Tree.node (1 : ℤ) 1 .nil .nil) (Tree.node (2 : ℤ) 1 .nil .nil)) :=
  ⟨by decide,
    (claim_C5_merge (by decide) (by decide) (by decide) (by decide)
      (by decide) (by decide) (by decide)).2.1⟩

/-- Claim C6: after any sequence of public operations (bulk construction
followed by inserts and removes), the stored length equals the number of
nodes reachable from the root, `len` reports it, and `is_empty` holds
exactly when no node is reachable. -/
theorem claim_C6_len [LinearOrder α] (xs : List α) (ops : List (Op α)) :
    (applyOps (AVLTree.fromList xs) ops).len =
      size (applyOps (AVLTree.fromList xs) ops).root ∧
    ((applyOps (AVLTree.fromList xs) ops).isEmpty = true ↔
      (applyOps (AVLTree.fromList xs) ops).root = .nil) := by
  obtain ⟨_, hlen⟩ := inv_applyOps (inv_fromList xs) ops
  refine ⟨hlen, ?_⟩
  rw [AVLTree.isEmpty, beq_iff_eq, hlen]
  exact size_eq_zero_iff

/-- Claim C7: after any sequence of public operations, every reachable
node's cached `height` field equals one plus the maximum of the actual
heights of its subtrees (an absent child contributing height zero). -/
theorem claim_C7_height [LinearOrder α] (xs : List α) (ops : List (Op α))
    (v : α) (h : Nat) (l r : Tree α)
    (hr : Reach (applyOps (AVLTree.fromList xs) ops).root (.node v h l r)) :
    h = 1 + max (realHeight l) (realHeight r) := by
  obtain ⟨⟨hok, bal, _⟩, _⟩ := inv_applyOps (inv_fromList xs) ops
  obtain ⟨hoku, _⟩ := reach_hok_bal hok bal hr
  obtain ⟨hokl, hokr, hh⟩ := hoku
  rw [hh, hgt_eq_realHeight hokl, hgt_eq_realHeight hokr]

/-- Witness for C7 at a concrete tree: the childless node 2 has height 1. -/
theorem claim_C7_witness :
    Reach (applyOps (AVLTree.fromList ([1, 2] : List ℤ)) []).root
      (.node 2 1 .nil .nil) ∧
    (1 : Nat) = 1 + max (realHeight (.nil : Tree ℤ)) (realHeight (.nil : Tree ℤ)) := by
  have e : (applyOps (AVLTree.fromList ([1, 2] : List ℤ)) []).root =
      Tree.node 1 2 .nil (.node 2 1 .nil .nil) := by decide
  have hre : Reach (applyOps (AVLTree.fromList ([1, 2] : List ℤ)) []).root
      (.node 2 1 .nil .nil) := by
    rw [e]
    exact Reach.right (Reach.refl _)
  exact ⟨hre, claim_C7_height [1, 2] [] 2 1 .nil .nil hre⟩

/-- Claim C8: on a valid tree, inserting an already-present value returns
false and leaves the tree (contents and count) exactly unchanged, and
removing an absent value returns false and leaves the tree exactly
unchanged. -/
theorem claim_C8_noop [LinearOrder α] (t : AVLTree α) (hinv : Inv t) (x : α) :
    (t.contains x = true → t.insert x = (t, false)) ∧
    (t.contains x = false → t.remove x = (t, false)) := by
  obtain ⟨rt, len⟩ := t
  obtain ⟨⟨hok, bal, bst⟩, hlen⟩ := hinv
  constructor
  · intro hcx
    have hx : x ∈ inorder rt := (containsAux_iff bst x).mp hcx
    obtain ⟨_, _, _, mflag, _, _, _, msame, _⟩ := insertAux_spec x hok bal bst
    have hf : (insertAux rt x).2 = false := by
      cases hff : (insertAux rt x).2 with
      | false => rfl
      | true => exact absurd hx (mflag.mp hff)
    have ht : (insertAux rt x).1 = rt := msame hf
    simp only [AVLTree.insert]
    rw [hf, ht]
    simp
  · intro hcx
    have hcx' : containsAux rt x = false := hcx
    have hx : ¬ x ∈ inorder rt := fun hmem => by
      have h1 : containsAux rt x = true := (containsAux_iff bst x).mpr hmem
      rw [h1] at hcx'
      exact absurd hcx' (by simp)
    obtain ⟨_, _, _, mflag, _, _, _, msame, _⟩ := removeAux_spec x hok bal bst
    have hf : (removeAux rt x).2 = false := by
      cases hff : (removeAux rt x).2 with
      | false => rfl
      | true => exact absurd (mflag.mp hff) hx
    have ht : (removeAux rt x).1 = rt := msame hf
    simp only [AVLTree.remove]
    rw [hf, ht]
    simp

/-- Witness for C8 at a concrete tree: inserting the present 1 and removing
the absent 5 are both no-ops. -/
theorem claim_C8_witness :
    Inv (AVLTree.fromList ([1, 2] : List ℤ)) ∧
    ((AVLTree.fromList ([1, 2] : List ℤ)).contains 1 = true →
      (AVLTree.fromList ([1, 2] : List ℤ)).insert 1 =
        (AVLTree.fromList ([1, 2] : List ℤ), false)) ∧
    ((AVLTree.fromList ([1, 2] : List ℤ)).contains 5 = false →
      (AVLTree.fromList ([1, 2] : List ℤ)).remove 5 =
        (AVLTree.fromList ([1, 2] : List ℤ), false)) :=
  ⟨by decide,
    (claim_C8_noop (AVLTree.fromList [1, 2]) (by decide) 1).1,
    (claim_C8_noop (AVLTree.fromList [1, 2]) (by decide) 5).2⟩

/-- `take_min` succeeds on every non-empty subtree. -/
theorem takeMin_isSome {t : Tree α} (hne : t ≠ .nil) :
    (takeMin t).1.isSome = true := by
  cases t with
  | nil => exact absurd rfl hne
  | node v h l r =>
    have e0 : takeMin (Tree.node v h l r) =
        (match takeMin l with
          | (some m, l') => (some m, rebalance (.node v h l' r))
          | (none, _) => (some (.node v h .nil .nil), r)) := rfl
    rw [e0]
    rcases takeMin l with ⟨_ | m, l'⟩ <;> simp

/-- Claim C9: under the data-model invariants none of the internal
`unwrap` calls can fail: `take_min` on the non-empty right operand of
`merge` returns a node; and under the height preconditions holding at
every call site the panic-aware `rebalance` and `merge` (in which every
source `unwrap` is modelled as a possible `none`) return exactly the
total results — so the heavy-child unwrap in `rebalance` and the child
unwraps inside `rotate` cannot fail either. -/
theorem claim_C9_unwraps :
    (∀ t : Tree α, t ≠ .nil → (takeMin t).1.isSome = true) ∧
    (∀ (v : α) (h : Nat) (l r : Tree α), HOk l → HOk r → Bal l → Bal r →
      hgt l ≤ hgt r + 2 → hgt r ≤ hgt l + 2 →
      rebalanceP (.node v h l r) = some (rebalance (.node v h l r))) ∧
    (∀ l r : Tree α, HOk l → HOk r → Bal l → Bal r → r ≠ .nil →
      hgt l ≤ hgt r + 1 → hgt r ≤ hgt l + 2 →
      mergeP l r = some (merge l r)) := by
  refine ⟨fun t ht => takeMin_isSome ht,
    fun v h l r hokl hokr ball balr d1 d2 => ?_,
    fun l r hokl hokr ball balr hne d1 d2 => ?_⟩
  · exact (rebalance_main hokl hokr ball balr d1 d2).2.2.2.2.2
  · obtain ⟨m, mh, r', _, _, _, _, _, _, _, _, _, hp⟩ :=
      merge_spec hokl hokr ball balr hne d1 d2
    exact hp

/-- Witness for C9 at concrete subtrees. -/
theorem claim_C9_witness :
    ((Tree.node (5 : ℤ) 1 .nil .nil) ≠ .nil ∧
      (takeMin (Tree.node (5 : ℤ) 1 .nil .nil)).1.isSome = true) ∧
    rebalanceP (Tree.node (9 : ℤ) 7 (.node 1 1 .nil .nil) .nil) =
      some (rebalance (Tree.node (9 : ℤ) 7 (.node 1 1 .nil .nil) .nil)) ∧
    mergeP (Tree.node (1 : ℤ) 1 .nil .nil) (Tree.node (2 : ℤ) 1 .nil .nil) =
      some (merge (Tree.node (1 : ℤ) 1 .nil .nil) (Tree.node (2 : ℤ) 1 .nil .nil)) :=
  ⟨⟨by decide, (claim_C9_unwraps (α := ℤ)).1 _ (by decide)⟩,
    (claim_C9_unwraps (α := ℤ)).2.1 9 7 (.node 1 1 .nil .nil) .nil
      (by decide) (by decide) (by decide) (by decide) (by decide) (by decide),
    (claim_C9_unwraps (α := ℤ)).2.2 (.node 1 1 .nil .nil) (.node 2 1 .nil .nil)
      (by decide) (by decide) (by decide) (by decide) (by decide)
      (by decide) (by decide)⟩

/-- Claim C10: whenever the heights of the two subtrees differ by at most
two — as holds for every node on which `balance_factor` is invoked during
maintenance — the unsigned-subtract-then-`i8`-cast computation does not
truncate and returns exactly `height(right) - height(left)` as a signed
value; moreover every node of a maintained tree satisfies the (stricter)
difference bound. -/
theorem claim_C10_bfac [LinearOrder α] :
    (∀ (v : α) (h : Nat) (l r : Tree α), hgt l ≤ hgt r + 2 → hgt r ≤ hgt l + 2 →
      bfac (.node v h l r) = (hgt r : Int) - (hgt l : Int)) ∧
    (∀ (ops : List (Op α)) (v : α) (h : Nat) (l r : Tree α),
      Reach (applyOps (AVLTree.new : AVLTree α) ops).root (.node v h l r) →
      hgt l ≤ hgt r + 1 ∧ hgt r ≤ hgt l + 1 ∧
      bfac (.node v h l r) = (hgt r : Int) - (hgt l : Int)) := by
  constructor
  · intro v h l r d1 d2
    exact bfac_node_eq (by omega) (by omega)
  · intro ops v h l r hr
    obtain ⟨⟨hok, bal, _⟩, _⟩ := inv_applyOps inv_new ops
    obtain ⟨_, balu⟩ := reach_hok_bal hok bal hr
    obtain ⟨_, _, d1, d2⟩ := balu
    exact ⟨d1, d2, bfac_node_eq (by omega) (by omega)⟩

/-- Witness for C10 at a concrete node with height difference two. -/
theorem claim_C10_witness :
    (hgt (Tree.node (1 : ℤ) 2 .nil .nil) ≤ hgt (.nil : Tree ℤ) + 2 ∧
      hgt (.nil : Tree ℤ) ≤ hgt (Tree.node (1 : ℤ) 2 .nil .nil) + 2) ∧
    bfac (Tree.node (9 : ℤ) 7 (.node 1 2 .nil .nil) .nil) =
      (hgt (.nil : Tree ℤ) : Int) - (hgt (Tree.node (1 : ℤ) 2 .nil .nil) : Int) :=
  ⟨by decide,
    (claim_C10_bfac (α := ℤ)).1 9 7 (.node 1 2 .nil .nil) .nil
      (by decide) (by decide)⟩

end AvlSpec
